import Mathlib

/-!
Shallow embedding of src/lib/key-utils.js over List Char, together with proofs
and refutations of the specification's claims about it.  Strings are modelled
as lists of characters; the three reserved characters are the backslash escape
character and the two separator characters from the top of the source file.
-/

namespace KeyUtils

/-- The escape character: a single backslash (the literal matched by the
source's escapeBackslashRegex). -/
def bs : Char := '\\'

/-- tokenSeparator from the source. -/
def tokenSeparator : Char := '￭'

/-- keySeparator from the source. -/
def keySeparator : Char := '￮'

/-- JS str.replace with a global single-character literal regex: every
occurrence of the character t is replaced by the string r. -/
def replaceChar (t : Char) (r : List Char) : List Char → List Char
  | [] => []
  | c :: rest => (if c = t then r else [c]) ++ replaceChar t r rest

/-- JS str.replace with a global two-character literal regex: a left-to-right,
non-overlapping scan replacing each occurrence of the pattern a,b by the single
character r. -/
def replacePair (a b r : Char) : List Char → List Char
  | [] => []
  | [c] => [c]
  | c :: d :: rest =>
    if c = a ∧ d = b then r :: replacePair a b r rest
    else c :: replacePair a b r (d :: rest)

/-- escape from the source: double each backslash, then put a backslash before
each tokenSeparator, then before each keySeparator (in that order). -/
def escape (str : List Char) : List Char :=
  replaceChar keySeparator [bs, keySeparator]
    (replaceChar tokenSeparator [bs, tokenSeparator]
      (replaceChar bs [bs, bs] str))

/-- unescape from the source: drop the backslash before each tokenSeparator,
then before each keySeparator, then collapse doubled backslashes (in that
order). -/
def unescape (str : List Char) : List Char :=
  replacePair bs bs bs
    (replacePair bs keySeparator keySeparator
      (replacePair bs tokenSeparator tokenSeparator str))

/-- JS text.split(sep) for a one-character string separator. -/
def splitOnChar (sep : Char) : List Char → List (List Char)
  | [] => [[]]
  | c :: rest =>
    if c = sep then [] :: splitOnChar sep rest
    else
      match splitOnChar sep rest with
      | [] => [[c]]
      | f :: fs => (c :: f) :: fs

/-- True when the two-character pattern a,b occurs somewhere in the list. -/
def hasPair (a b : Char) : List Char → Bool
  | [] => false
  | [_] => false
  | c :: d :: rest => (c == a && d == b) || hasPair a b (d :: rest)

/-- True when the list begins with the two-character pattern a,b.  Together
with hasPair this models text.indexOf(pattern) > 0: the pattern occurs, but not
at index 0. -/
def startsWithPair (a b : Char) : List Char → Bool
  | c :: d :: _ => c == a && d == b
  | _ => false

/-- Scan underlying JS split on the pattern sep(\\\\)*(?!\\): a separator
matches exactly when the maximal run of backslashes that follows it (in scan
direction) has even length, and the match consumes the separator together with
that run.  Matches are local (a consumed run contains no separator), so the
list is processed from the right, carrying the run of backslashes not yet
attached to a fragment.  The separators used by the source are never the
backslash itself. -/
def regexSplitAux (sep : Char) : List Char → List (List Char) × Nat
  | [] => ([[]], 0)
  | c :: rest =>
    match regexSplitAux sep rest with
    | (res, pending) =>
      if c = bs then (res, pending + 1)
      else if c = sep ∧ pending % 2 = 0 then ([] :: res, 0)
      else
        match res with
        | [] => ([c :: List.replicate pending bs], 0)
        | f :: fs => ((c :: (List.replicate pending bs ++ f)) :: fs, 0)

/-- JS text.split(re) for the pattern sep(\\\\)*(?!\\) built inside
splitOnUnescapedSeparator. -/
def regexSplit (sep : Char) (l : List Char) : List (List Char) :=
  match regexSplitAux sep l with
  | (res, pending) =>
    match res with
    | [] => [List.replicate pending bs]
    | f :: fs => (List.replicate pending bs ++ f) :: fs

/-- reverseSplit from the source: reverse the text, split it on the reversed
pattern, reverse each fragment, and reverse the fragment order. -/
def reverseSplit (text : List Char) (sep : Char) : List (List Char) :=
  ((regexSplit sep text.reverse).map List.reverse).reverse

/-- splitOnUnescapedSeparator from the source.  The guard mirrors
text.indexOf(backslash + sep) > 0: the two-character pattern occurs at some
strictly positive index. -/
def splitOnUnescapedSeparator (text : List Char) (sep : Char) : List (List Char) :=
  if hasPair bs sep text && !startsWithPair bs sep text then
    reverseSplit text sep
  else
    splitOnChar sep text

/-- buildKey from the source (array form): escape each component and join with
keySeparator. -/
def buildKey (components : List (List Char)) : List Char :=
  List.intercalate [keySeparator] (components.map escape)

/-- breakKey from the source: split on unescaped keySeparator, then unescape
each fragment. -/
def breakKey (key : List Char) : List (List Char) :=
  (splitOnUnescapedSeparator key keySeparator).map unescape

/-- buildSearchKey from the source: joins the five slots with keySeparator,
with a missing filter or filterKey replaced by the empty string.  Note that
the source joins the raw components directly; it does not route them through
buildKey, so no escaping happens here. -/
def buildSearchKey (pfx field value : List Char)
    (filter filterKey : Option (List Char)) : List Char :=
  List.intercalate [keySeparator]
    [pfx, field, value, filter.getD [], filterKey.getD []]

/-- The behaviour the specification claims for buildSearchKey: buildKey on the
five slots, the missing ones replaced by the empty string.  Declared only to
be compared with buildSearchKey. -/
def buildSearchKeySpec (pfx field value : List Char)
    (filter filterKey : Option (List Char)) : List Char :=
  buildKey [pfx, field, value, filter.getD [], filterKey.getD []]

/-- Result shape of parseSearchKey: components read off positions 0 to 4 of
breakKey's output (absent positions are none, the JS undefined) and the rest
kept as trailing. -/
structure SearchKeyParts where
  pfx : Option (List Char)
  field : Option (List Char)
  value : Option (List Char)
  filter : Option (List Char)
  filterKey : Option (List Char)
  trailing : List (List Char)
deriving DecidableEq

/-- parseSearchKey from the source. -/
def parseSearchKey (key : List Char) : SearchKeyParts :=
  let parts := breakKey key
  ⟨parts[0]?, parts[1]?, parts[2]?, parts[3]?, parts[4]?, parts.drop 5⟩

/-- Result shape of parseKey: first component extracted (none when breakKey
returned nothing), remainder kept in order. -/
structure KeyParts where
  pfx : Option (List Char)
  parts : List (List Char)
deriving DecidableEq

/-- The module-level variable named parts: in the source, parseKey and
parseSearchKey assign to parts with no declaration keyword, so in non-strict
mode both write one implicitly created module global shared across all calls.
The global is modelled as explicit state threaded through both functions. -/
structure ModuleState where
  parts : List (List Char)
deriving DecidableEq

/-- parseKey from the source, with the shared global made explicit: the call
assigns breakKey key to the global, and parts.shift() then removes and returns
the first component, mutating the global, which therefore holds the tail when
the call returns. -/
def parseKeyS (key : List Char) : ModuleState → KeyParts × ModuleState :=
  fun _ =>
    let ps := breakKey key
    (⟨ps.head?, ps.tail⟩, ⟨ps.tail⟩)

/-- parseSearchKey from the source, with the shared global made explicit: the
call assigns breakKey key to the global and reads the components from it
without further mutation. -/
def parseSearchKeyS (key : List Char) : ModuleState → SearchKeyParts × ModuleState :=
  fun _ =>
    let ps := breakKey key
    (⟨ps[0]?, ps[1]?, ps[2]?, ps[3]?, ps[4]?, ps.drop 5⟩, ⟨ps⟩)

/-- keyHasPrefix from the source, under a shorter name: compares the first
length-plus-one characters of the key with the prefix followed by one
keySeparator (JS substring plus strict string equality). -/
def keyHasPfx (key pfx : List Char) : Bool :=
  decide (key.take (pfx.length + 1) = pfx ++ [keySeparator])

/-- The claim's reading of keyHasPrefix: the key starts with the prefix
followed by one keySeparator, and that separator is unescaped, i.e. the run of
backslashes immediately before it (the trailing backslash run of the prefix)
has even length. -/
def specKeyHasPfx (key pfx : List Char) : Bool :=
  (pfx ++ [keySeparator]).isPrefixOf key &&
    (pfx.reverse.takeWhile (fun c => c == bs)).length % 2 == 0

/-- The separator argument of tokenize, restricted to the argument shapes the
claims exercise: undefined (the default word separator), null or false (which
the source turns into the empty regex), or a single literal character. -/
inductive Separator where
  | undef : Separator
  | nullFalse : Separator
  | chr : Char → Separator

/-- Membership in the default word-separator character class of the source,
the regex class containing pipe, apostrophe, space, dot, comma, hyphen,
parentheses and newline. -/
def isWordSepChar (c : Char) : Bool :=
  c == '|' || c == '\'' || c == ' ' || c == '.' || c == ',' ||
    c == '-' || c == '(' || c == '\n' || c == ')'

/-- JS text.split on a one-or-more character-class regex: split on maximal
nonempty runs of class characters.  Processed from the right; the Bool records
whether the head fragment currently borders a separator run. -/
def splitOnRunsAux (p : Char → Bool) : List Char → List (List Char) × Bool
  | [] => ([[]], false)
  | c :: rest =>
    match splitOnRunsAux p rest with
    | (res, inRun) =>
      if p c then
        if inRun then (res, true) else ([] :: res, true)
      else
        match res with
        | [] => ([[c]], false)
        | f :: fs => ((c :: f) :: fs, false)

/-- Split on maximal runs of characters satisfying p. -/
def splitOnRuns (p : Char → Bool) (l : List Char) : List (List Char) :=
  (splitOnRunsAux p l).1

/-- tokenize from the source.  When isEncoded is true the text is split on
unescaped tokenSeparator and the separator argument is ignored.  Otherwise an
undefined separator means the default word-separator class; null or false
become the empty string, hence the empty regex, and JS split on the empty
regex cuts the string into its individual characters; a single-character
separator is a plain split. -/
def tokenize (text : List Char) (isEncoded : Bool) (separator : Separator) :
    List (List Char) :=
  if isEncoded then splitOnUnescapedSeparator text tokenSeparator
  else
    match separator with
    | .undef => splitOnRuns isWordSepChar text
    | .nullFalse => text.map (fun c => [c])
    | .chr c => splitOnChar c text

/-- encode from the source: escape the text, tokenize the escaped text with
the given separator, and join the tokens with tokenSeparator. -/
def encode (text : List Char) (separator : Separator) : List Char :=
  List.intercalate [tokenSeparator] (tokenize (escape text) false separator)

end KeyUtils

namespace KeyUtils

/-- Character-level form of one escaping step: what escape does to a single
character once the three replacement passes are combined. -/
def esc (c : Char) : List Char :=
  if c = bs then [bs, bs]
  else if c = tokenSeparator then [bs, tokenSeparator]
  else if c = keySeparator then [bs, keySeparator]
  else [c]

/-- State after the first unescape pass: tokenSeparator bare again, the other
two still escaped. -/
def esc2 (c : Char) : List Char :=
  if c = bs then [bs, bs]
  else if c = keySeparator then [bs, keySeparator]
  else [c]

/-- State after the second unescape pass: only doubled backslashes remain. -/
def esc3 (c : Char) : List Char :=
  if c = bs then [bs, bs] else [c]

/-- Concatenation of a character-level translation over a list. -/
def mapEsc (f : Char → List Char) : List Char → List Char
  | [] => []
  | c :: rest => f c ++ mapEsc f rest

lemma bs_ne_ts : bs ≠ tokenSeparator := by decide

lemma bs_ne_ks : bs ≠ keySeparator := by decide

lemma ts_ne_ks : tokenSeparator ≠ keySeparator := by decide

lemma ts_ne_bs : tokenSeparator ≠ bs := by decide

lemma ks_ne_bs : keySeparator ≠ bs := by decide

lemma ks_ne_ts : keySeparator ≠ tokenSeparator := by decide

lemma replaceChar_append (t : Char) (r x y : List Char) :
    replaceChar t r (x ++ y) = replaceChar t r x ++ replaceChar t r y := by
  induction x with
  | nil => rfl
  | cons c cs ih => simp [replaceChar, ih]

lemma escape_eq_mapEsc (s : List Char) : escape s = mapEsc esc s := by
  induction s with
  | nil => rfl
  | cons c s ih =>
    have hstep : escape (c :: s)
        = replaceChar keySeparator [bs, keySeparator]
            (replaceChar tokenSeparator [bs, tokenSeparator]
              ((if c = bs then [bs, bs] else [c]) ++ replaceChar bs [bs, bs] s)) := rfl
    have hhead :
        replaceChar keySeparator [bs, keySeparator]
            (replaceChar tokenSeparator [bs, tokenSeparator]
              (if c = bs then [bs, bs] else [c])) = esc c := by
      by_cases h1 : c = bs
      · subst h1; decide
      · by_cases h2 : c = tokenSeparator
        · subst h2; decide
        · by_cases h3 : c = keySeparator
          · subst h3; decide
          · simp [replaceChar, esc, h1, h2, h3]
    rw [hstep, replaceChar_append, replaceChar_append, hhead]
    show esc c ++ escape s = mapEsc esc (c :: s)
    rw [ih]
    rfl

lemma replacePair_cons_ne_fst {a b r c : Char} {l : List Char} (h : c ≠ a) :
    replacePair a b r (c :: l) = c :: replacePair a b r l := by
  cases l with
  | nil => rfl
  | cons d rest =>
    show (if c = a ∧ d = b then r :: replacePair a b r rest
      else c :: replacePair a b r (d :: rest)) = c :: replacePair a b r (d :: rest)
    rw [if_neg]
    exact fun hc => h hc.1

lemma replacePair_cons₂_ne_snd {a b r c d : Char} {l : List Char} (h : d ≠ b) :
    replacePair a b r (c :: d :: l) = c :: replacePair a b r (d :: l) := by
  show (if c = a ∧ d = b then r :: replacePair a b r l
    else c :: replacePair a b r (d :: l)) = c :: replacePair a b r (d :: l)
  rw [if_neg]
  exact fun hc => h hc.2

lemma replacePair_cons₂_match (a b r : Char) (l : List Char) :
    replacePair a b r (a :: b :: l) = r :: replacePair a b r l := by
  show (if a = a ∧ b = b then r :: replacePair a b r l
    else a :: replacePair a b r (b :: l)) = r :: replacePair a b r l
  rw [if_pos ⟨rfl, rfl⟩]

lemma mapEsc_esc_head (c : Char) (s : List Char) :
    ∃ h t, mapEsc esc (c :: s) = h :: t ∧ h ≠ tokenSeparator ∧ h ≠ keySeparator := by
  by_cases h1 : c = bs
  · subst h1; exact ⟨bs, bs :: mapEsc esc s, rfl, bs_ne_ts, bs_ne_ks⟩
  · by_cases h2 : c = tokenSeparator
    · subst h2
      exact ⟨bs, tokenSeparator :: mapEsc esc s, rfl, bs_ne_ts, bs_ne_ks⟩
    · by_cases h3 : c = keySeparator
      · subst h3
        exact ⟨bs, keySeparator :: mapEsc esc s, rfl, bs_ne_ts, bs_ne_ks⟩
      · exact ⟨c, mapEsc esc s, by simp [mapEsc, esc, h1, h2, h3], h2, h3⟩

lemma mapEsc_esc2_head (c : Char) (s : List Char) :
    ∃ h t, mapEsc esc2 (c :: s) = h :: t ∧ h ≠ keySeparator := by
  by_cases h1 : c = bs
  · subst h1; exact ⟨bs, bs :: mapEsc esc2 s, rfl, bs_ne_ks⟩
  · by_cases h3 : c = keySeparator
    · subst h3; exact ⟨bs, keySeparator :: mapEsc esc2 s, rfl, bs_ne_ks⟩
    · exact ⟨c, mapEsc esc2 s, by simp [mapEsc, esc2, h1, h3], h3⟩

lemma pass1_mapEsc (s : List Char) :
    replacePair bs tokenSeparator tokenSeparator (mapEsc esc s) = mapEsc esc2 s := by
  induction s with
  | nil => rfl
  | cons c s ih =>
    by_cases h1 : c = bs
    · subst h1
      have e : mapEsc esc (bs :: s) = bs :: bs :: mapEsc esc s := rfl
      rw [e, replacePair_cons₂_ne_snd bs_ne_ts]
      cases s with
      | nil => rfl
      | cons c' s' =>
        obtain ⟨h, t, heq, hts, _⟩ := mapEsc_esc_head c' s'
        rw [heq, replacePair_cons₂_ne_snd hts, ← heq, ih]
        rfl
    · by_cases h2 : c = tokenSeparator
      · subst h2
        have e : mapEsc esc (tokenSeparator :: s)
            = bs :: tokenSeparator :: mapEsc esc s := rfl
        rw [e, replacePair_cons₂_match, ih]
        rfl
      · by_cases h3 : c = keySeparator
        · subst h3
          have e : mapEsc esc (keySeparator :: s)
              = bs :: keySeparator :: mapEsc esc s := rfl
          rw [e, replacePair_cons₂_ne_snd ks_ne_ts,
            replacePair_cons_ne_fst ks_ne_bs, ih]
          rfl
        · have e : mapEsc esc (c :: s) = c :: mapEsc esc s := by
            simp [mapEsc, esc, h1, h2, h3]
          rw [e, replacePair_cons_ne_fst h1, ih]
          simp [mapEsc, esc2, h1, h3]

lemma pass2_mapEsc (s : List Char) :
    replacePair bs keySeparator keySeparator (mapEsc esc2 s) = mapEsc esc3 s := by
  induction s with
  | nil => rfl
  | cons c s ih =>
    by_cases h1 : c = bs
    · subst h1
      have e : mapEsc esc2 (bs :: s) = bs :: bs :: mapEsc esc2 s := rfl
      rw [e, replacePair_cons₂_ne_snd bs_ne_ks]
      cases s with
      | nil => rfl
      | cons c' s' =>
        obtain ⟨h, t, heq, hks⟩ := mapEsc_esc2_head c' s'
        rw [heq, replacePair_cons₂_ne_snd hks, ← heq, ih]
        rfl
    · by_cases h3 : c = keySeparator
      · subst h3
        have e : mapEsc esc2 (keySeparator :: s)
            = bs :: keySeparator :: mapEsc esc2 s := rfl
        rw [e, replacePair_cons₂_match, ih]
        rfl
      · have e : mapEsc esc2 (c :: s) = c :: mapEsc esc2 s := by
          simp [mapEsc, esc2, h1, h3]
        rw [e, replacePair_cons_ne_fst h1, ih]
        simp [mapEsc, esc3, h1]

lemma pass3_mapEsc (s : List Char) :
    replacePair bs bs bs (mapEsc esc3 s) = s := by
  induction s with
  | nil => rfl
  | cons c s ih =>
    by_cases h1 : c = bs
    · subst h1
      have e : mapEsc esc3 (bs :: s) = bs :: bs :: mapEsc esc3 s := rfl
      rw [e, replacePair_cons₂_match, ih]
    · have e : mapEsc esc3 (c :: s) = c :: mapEsc esc3 s := by
        simp [mapEsc, esc3, h1]
      rw [e, replacePair_cons_ne_fst h1, ih]

end KeyUtils

namespace KeyUtils

/-- Walks the list tracking whether the current trailing run of backslashes
has odd length; returns true exactly when every occurrence of sep in the list
is preceded by an odd-length run of backslashes, i.e. is escaped. -/
def noUnescAux (sep : Char) : List Char → Bool → Bool
  | [], _ => true
  | c :: rest, odd =>
    if c = sep then odd && noUnescAux sep rest false
    else noUnescAux sep rest (if c = bs then !odd else false)

/-- Every occurrence of sep in the list is preceded by an odd run of
backslashes. -/
def noUnescapedSep (sep : Char) (l : List Char) : Bool :=
  noUnescAux sep l false

lemma noUnescAux_cons (sep c : Char) (rest : List Char) (odd : Bool) :
    noUnescAux sep (c :: rest) odd =
      if c = sep then odd && noUnescAux sep rest false
      else noUnescAux sep rest (if c = bs then !odd else false) := rfl

lemma noUnesc_mapEsc_ts (s : List Char) :
    noUnescAux tokenSeparator (mapEsc esc s) false = true := by
  induction s with
  | nil => rfl
  | cons c s ih =>
    by_cases h1 : c = bs
    · subst h1
      have e : mapEsc esc (bs :: s) = bs :: bs :: mapEsc esc s := rfl
      rw [e]
      simp [noUnescAux_cons, bs_ne_ts, ih]
    · by_cases h2 : c = tokenSeparator
      · subst h2
        have e : mapEsc esc (tokenSeparator :: s)
            = bs :: tokenSeparator :: mapEsc esc s := rfl
        rw [e]
        simp [noUnescAux_cons, bs_ne_ts, ih]
      · by_cases h3 : c = keySeparator
        · subst h3
          have e : mapEsc esc (keySeparator :: s)
              = bs :: keySeparator :: mapEsc esc s := rfl
          rw [e]
          simp [noUnescAux_cons, bs_ne_ts, ks_ne_ts, ks_ne_bs, ih]
        · have e : mapEsc esc (c :: s) = c :: mapEsc esc s := by
            simp [mapEsc, esc, h1, h2, h3]
          rw [e]
          simp [noUnescAux_cons, h1, h2, ih]

lemma noUnesc_mapEsc_ks (s : List Char) :
    noUnescAux keySeparator (mapEsc esc s) false = true := by
  induction s with
  | nil => rfl
  | cons c s ih =>
    by_cases h1 : c = bs
    · subst h1
      have e : mapEsc esc (bs :: s) = bs :: bs :: mapEsc esc s := rfl
      rw [e]
      simp [noUnescAux_cons, bs_ne_ks, ih]
    · by_cases h2 : c = tokenSeparator
      · subst h2
        have e : mapEsc esc (tokenSeparator :: s)
            = bs :: tokenSeparator :: mapEsc esc s := rfl
        rw [e]
        simp [noUnescAux_cons, bs_ne_ks, ts_ne_ks, ts_ne_bs, ih]
      · by_cases h3 : c = keySeparator
        · subst h3
          have e : mapEsc esc (keySeparator :: s)
              = bs :: keySeparator :: mapEsc esc s := rfl
          rw [e]
          simp [noUnescAux_cons, bs_ne_ks, ih]
        · have e : mapEsc esc (c :: s) = c :: mapEsc esc s := by
            simp [mapEsc, esc, h1, h2, h3]
          rw [e]
          simp [noUnescAux_cons, h1, h3, ih]

/-- C1: break_key is not an exact inverse of build_key.  On the component list
consisting of a single backslash and the letter b, the built key is two
backslashes, keySeparator, b; the general reverse-split path fires and its
regex consumes the escaped backslash pair together with the separator, so
breaking the key loses the first component's backslash and returns the empty
string and b instead. -/
theorem c1_key_roundtrip_fails :
    breakKey (buildKey [[bs], ['b']]) = [[], ['b']] ∧
      ([[], ['b']] : List (List Char)) ≠ [[bs], ['b']] := by
  exact ⟨by decide, by decide⟩

/-- C2: unescape is an exact left inverse of escape on every string, including
strings already containing the escape character and the two separators. -/
theorem c2_unescape_escape_roundtrip : ∀ s : List Char, unescape (escape s) = s := by
  intro s
  rw [escape_eq_mapEsc]
  show replacePair bs bs bs
      (replacePair bs keySeparator keySeparator
        (replacePair bs tokenSeparator tokenSeparator (mapEsc esc s))) = s
  rw [pass1_mapEsc, pass2_mapEsc, pass3_mapEsc]

/-- C3: splitOnUnescapedSeparator does not implement the even-run splitting
semantics.  First failure: on text a, backslash, backslash, keySeparator, b
the general path deletes the even backslash run in front of the separator, so
the first fragment loses its backslashes.  Second failure: on text backslash,
keySeparator, keySeparator, x the escaped-separator pattern occurs at index 0,
the indexOf guard (strictly positive) misses it, the plain-split fast path is
taken, and its output differs from the general reverse-split path on the same
input. -/
theorem c3_splitOnUnescapedSeparator_fails :
    splitOnUnescapedSeparator ['a', bs, bs, keySeparator, 'b'] keySeparator
        = [['a'], ['b']] ∧
      ([['a'], ['b']] : List (List Char)) ≠ [['a', bs, bs], ['b']] ∧
      splitOnUnescapedSeparator [bs, keySeparator, keySeparator, 'x'] keySeparator
        = [[bs], [], ['x']] ∧
      reverseSplit [bs, keySeparator, keySeparator, 'x'] keySeparator
        = [[bs, keySeparator], ['x']] ∧
      ([[bs], [], ['x']] : List (List Char)) ≠ [[bs, keySeparator], ['x']] := by
  exact ⟨by decide, by decide, by decide, by decide, by decide⟩

/-- C4: buildSearchKey is not build_key on the five slots: it joins the raw
components with keySeparator and never escapes them.  With keySeparator itself
as the first component the two functions disagree. -/
theorem c4_buildSearchKey_skips_escaping :
    buildSearchKey [keySeparator] ['f'] ['v'] none none
        = [keySeparator, keySeparator, 'f', keySeparator, 'v', keySeparator,
            keySeparator] ∧
      buildSearchKeySpec [keySeparator] ['f'] ['v'] none none
        = [bs, keySeparator, keySeparator, 'f', keySeparator, 'v', keySeparator,
            keySeparator] ∧
      buildSearchKey [keySeparator] ['f'] ['v'] none none
        ≠ buildSearchKeySpec [keySeparator] ['f'] ['v'] none none := by
  exact ⟨by decide, by decide, by decide⟩

/-- C5: the search-key round trip fails.  Because buildSearchKey does not
escape its components, a field equal to keySeparator leaks extra separators
into the key; parsing then misassigns every later slot and produces a nonempty
trailing list instead of returning the five inputs. -/
theorem c5_searchKey_roundtrip_fails :
    parseSearchKey (buildSearchKey ['a'] [keySeparator] ['v'] none none)
        = ⟨some ['a'], some [], some [], some ['v'], some [], [[]]⟩ ∧
      (⟨some ['a'], some [], some [], some ['v'], some [], [[]]⟩ : SearchKeyParts)
        ≠ ⟨some ['a'], some [keySeparator], some ['v'], some [], some [], []⟩ := by
  exact ⟨by decide, by decide⟩

/-- C6: separator safety of escape: in the output of escape every occurrence
of tokenSeparator and every occurrence of keySeparator is preceded by an
odd-length run of escape characters, for every input string. -/
theorem c6_escape_separator_safety (s : List Char) :
    noUnescapedSep tokenSeparator (escape s) = true ∧
      noUnescapedSep keySeparator (escape s) = true := by
  refine ⟨?_, ?_⟩
  · show noUnescAux tokenSeparator (escape s) false = true
    rw [escape_eq_mapEsc]
    exact noUnesc_mapEsc_ts s
  · show noUnescAux keySeparator (escape s) false = true
    rw [escape_eq_mapEsc]
    exact noUnesc_mapEsc_ks s

/-- C7: the encode/tokenize invariant fails.  For the text backslash, comma
with separator comma, the original split of the escaped text yields the
fragments double-backslash and empty; re-splitting the encoded stream through
the encoded-aware path hits the pair-consuming reverse-split regex, which eats
the doubled backslash, so the token sequences differ. -/
theorem c7_tokenize_encode_fails :
    tokenize (encode [bs, ','] (Separator.chr ',')) true Separator.undef
        = [[], []] ∧
      tokenize (escape [bs, ',']) false (Separator.chr ',') = [[bs, bs], []] ∧
      ([[], []] : List (List Char)) ≠ [[bs, bs], []] := by
  exact ⟨by decide, by decide, by decide⟩

/-- C8: tokenize with an explicit null or false separator does not return the
whole string as one token: the source coerces null and false to the empty
string, builds the empty regex from it, and JS split on the empty regex cuts
the text into its individual characters. -/
theorem c8_tokenize_nullsep_fails :
    tokenize ['a', 'b', 'c'] false Separator.nullFalse = [['a'], ['b'], ['c']] ∧
      ([['a'], ['b'], ['c']] : List (List Char)) ≠ [['a', 'b', 'c']] := by
  exact ⟨by decide, by decide⟩

/-- C9 counterexample: keyHasPrefix does not require the separator after the
prefix to be unescaped.  For the key built from the components a-keySeparator
and z (whose text is a, backslash, keySeparator, keySeparator, z) and the
prefix a-backslash, the code answers true although the keySeparator right
after that prefix is escaped, refuting the claimed equivalence. -/
theorem c9_unescaped_check_counterexample :
    keyHasPfx (buildKey [['a', keySeparator], ['z']]) ['a', bs] = true ∧
      specKeyHasPfx (buildKey [['a', keySeparator], ['z']]) ['a', bs] = false := by
  exact ⟨by decide, by decide⟩

/-- C9 (amended): keyHasPrefix answers true exactly when the key starts with
the prefix followed immediately by one keySeparator character, with no
requirement that this separator be unescaped; in particular the TF example is
accepted and the TFX example rejected. -/
theorem c9_keyHasPfx_amended :
    (∀ key pfx : List Char,
        keyHasPfx key pfx = true ↔ (pfx ++ [keySeparator]) <+: key) ∧
      keyHasPfx (buildKey [['T', 'F'], ['x']]) ['T', 'F'] = true ∧
      keyHasPfx (buildKey [['T', 'F', 'X'], ['x']]) ['T', 'F'] = false := by
  refine ⟨?_, by decide, by decide⟩
  intro key pfx
  show decide (key.take (pfx.length + 1) = pfx ++ [keySeparator]) = true ↔ _
  rw [decide_eq_true_iff]
  constructor
  · intro h
    rw [← h]
    exact List.take_prefix _ _
  · intro h
    have hl : (pfx ++ [keySeparator]).length = pfx.length + 1 := by simp
    have h2 := List.prefix_iff_eq_take.mp h
    rw [hl] at h2
    exact h2.symm

/-- C10: parseKey and parseSearchKey both write the one shared module global
named parts.  In the explicit-state model: the state a call leaves behind is
determined by that call alone (whatever was stored before is overwritten, in
either interleaving order), and each function really does mutate state outside
its own locals. -/
theorem c10_shared_global_parts :
    (∀ (key : List Char) (st st' : ModuleState),
        (parseKeyS key st).2 = (parseKeyS key st').2) ∧
      (∀ (key : List Char) (st st' : ModuleState),
        (parseSearchKeyS key st).2 = (parseSearchKeyS key st').2) ∧
      (∀ (k1 k2 : List Char) (st : ModuleState),
        (parseSearchKeyS k2 (parseKeyS k1 st).2).2 = (parseSearchKeyS k2 st).2) ∧
      (∀ (k1 k2 : List Char) (st : ModuleState),
        (parseKeyS k2 (parseSearchKeyS k1 st).2).2 = (parseKeyS k2 st).2) ∧
      (∃ (key : List Char) (st : ModuleState), (parseKeyS key st).2 ≠ st) ∧
      (∃ (key : List Char) (st : ModuleState), (parseSearchKeyS key st).2 ≠ st) := by
  refine ⟨fun _ _ _ => rfl, fun _ _ _ => rfl, fun _ _ _ => rfl, fun _ _ _ => rfl,
    ⟨[], ⟨[['q']]⟩, by decide⟩, ⟨[], ⟨[]⟩, by decide⟩⟩

end KeyUtils
